import Mathlib

/-!
Verification of the release decision engine of `semantic-rs`.

The definitions below are shallow embeddings of the Rust sources:
  * `src/main.rs`   — `version_bump`, the `main` pipeline, `is_release_branch`,
                      the `info_exit!` / `error_exit!` macros;
  * `src/toml_file.rs` — `read_manifest`, `read_workspace`, `read_version`,
                      `file_with_new_version`, `read_from_file`,
                      `write_new_version`.

Machine integers (`u64` version components) are modelled as `Nat`; the
version numbers handled by the tool are astronomically far from `2^64`, and
no claim depends on wrap-around behaviour.  External crates (`semver`,
`toml`/`cargo_toml`, `regex`) are embedded by their documented behaviour at
exactly the call sites the sources use: the three `increment_*` methods of
`semver::Version`, TOML deserialization as an abstract parser parameter
`parse : String → Option Manifest`, and the one literal regular expression
of `toml_file.rs`, compiled by hand into a character-list matcher whose
`\s` and `\d` classes are the regex crate's default Unicode tables
(`White_Space` and the decimal-digit category), transcribed from the
Unicode Character Database.
-/

namespace SemanticRs

/-- The `major.minor.patch` triple of `semver::Version` (`u64` components
modelled as `Nat`; the sources never construct pre-release or build
metadata, and `increment_*` clears them). -/
structure Version where
  major : Nat
  minor : Nat
  patch : Nat
deriving DecidableEq, Repr

/-- Model of `commit_analyzer::CommitType` (the module itself is not part of the
excerpted sources, but its four variants are fixed by the `match` arms of
`version_bump` in `src/main.rs`). -/
inductive CommitType where
  | Unknown
  | Patch
  | Minor
  | Major
deriving DecidableEq, Repr

/-- Embedding of `semver::Version::increment_patch`: `patch += 1`. -/
def Version.increment_patch (v : Version) : Version :=
  { v with patch := v.patch + 1 }

/-- Embedding of `semver::Version::increment_minor`: `minor += 1, patch = 0`. -/
def Version.increment_minor (v : Version) : Version :=
  { v with minor := v.minor + 1, patch := 0 }

/-- Embedding of `semver::Version::increment_major`: `major += 1, minor = 0, patch = 0`. -/
def Version.increment_major (v : Version) : Version :=
  { major := v.major + 1, minor := 0, patch := 0 }

/-- Embedding of `version_bump` from `src/main.rs` lines 84-108.  The Rust function
clones its borrowed argument, mutates the clone according to the two
`match` blocks, and returns `Some(clone)`; `CommitType::Unknown` returns
`None` from inside either `match`. -/
def version_bump (version : Version) (bump : CommitType) : Option Version :=
  if version.major = 0 then
    match bump with
    | CommitType.Unknown => none
    | CommitType.Patch => some version.increment_patch
    | CommitType.Minor => some version.increment_patch
    | CommitType.Major => some version.increment_minor
  else
    match bump with
    | CommitType.Unknown => none
    | CommitType.Patch => some version.increment_patch
    | CommitType.Minor => some version.increment_minor
    | CommitType.Major => some version.increment_major

/-- The spec's section 4.4 table, transcribed from the spec text
(not from the code): row by row, keyed on `current.major == 0` versus
`>= 1`, with `Fix` as `Patch`, `Feature` as `Minor`, `Breaking` as
`Major`, `Unannotated` as `Unknown`. -/
def spec_nextVersion (current : Version) (kind : CommitType) : Option Version :=
  if current.major = 0 then
    match kind with
    | CommitType.Unknown => none
    | CommitType.Patch => some { current with patch := current.patch + 1 }
    | CommitType.Minor => some { current with patch := current.patch + 1 }
    | CommitType.Major => some { current with minor := current.minor + 1, patch := 0 }
  else
    match kind with
    | CommitType.Unknown => none
    | CommitType.Patch => some { current with patch := current.patch + 1 }
    | CommitType.Minor => some { current with minor := current.minor + 1, patch := 0 }
    | CommitType.Major =>
        some { major := current.major + 1, minor := 0, patch := 0 }

/-- The call-site view of `version_bump`: the caller passes the version by
shared borrow (`&Version`); the body clones it and mutates only the clone,
so the embedding returns the result together with the caller's version
after the call. -/
def version_bump_borrow (version : Version) (bump : CommitType) :
    Option Version × Version :=
  let cloned := version
  (version_bump cloned bump, version)

/-- Embedding of `version_bump` as a state transformer over an arbitrary ambient state:
the Rust body performs no IO and touches no global, so the embedded run
returns the state it was given. -/
def version_bump_run (σ : Type) (world : σ) (v : Version) (k : CommitType) :
    Option Version × σ :=
  (version_bump v k, world)

/-- Strict semantic-version precedence on `major.minor.patch` triples
(lexicographic; no pre-release parts are in play). -/
def Version.semver_lt (a b : Version) : Prop :=
  a.major < b.major
  ∨ (a.major = b.major
      ∧ (a.minor < b.minor ∨ (a.minor = b.minor ∧ a.patch < b.patch)))

instance (a b : Version) : Decidable (a.semver_lt b) := by
  unfold Version.semver_lt; infer_instance

/-- The `[package]` table of a manifest, as `cargo_toml::Package` is used
by `toml_file.rs`: only the `version` field is consulted. -/
structure Package where
  version : String
deriving DecidableEq, Repr

/-- The `[workspace]` table of a manifest: only the `members` list is
consulted. -/
structure Workspace where
  members : List String
deriving DecidableEq, Repr

/-- A deserialized `Cargo.toml`, as `cargo_toml::Manifest` is used by
`toml_file.rs`: an optional package table and an optional workspace
table. -/
structure Manifest where
  package : Option Package
  workspace : Option Workspace
deriving DecidableEq, Repr

/-- Embedding of `toml_file::read_manifest`: `toml::from_str` (the external TOML
deserializer, supplied as the abstract parameter `parse`) with parse
errors mapped to `None`. -/
def read_manifest (parse : String → Option Manifest) (file : String) :
    Option Manifest :=
  match parse file with
  | some manifest => some manifest
  | none => none

/-- Embedding of `toml_file::read_workspace`: the member list of the workspace table,
when the file parses and has one. -/
def read_workspace (parse : String → Option Manifest) (file : String) :
    Option (List String) :=
  match read_manifest parse file with
  | some manifest =>
      match manifest.workspace with
      | some workspace => some workspace.members
      | none => none
  | none => none

/-- Embedding of `toml_file::read_version`: the package version, when the file parses,
has a package table, and the version string is non-empty
(`Some(package.version).filter(|v| !v.is_empty())`). -/
def read_version (parse : String → Option Manifest) (file : String) :
    Option String :=
  match read_manifest parse file with
  | some manifest =>
      match manifest.package with
      | some package => (some package.version).filter (fun v => !v.isEmpty)
      | none => none
  | none => none

/-- Bounds check used by the character-class tables below. -/
def inRange (lo hi n : Nat) : Bool :=
  Nat.ble lo n && Nat.ble n hi

/-- The character class `\s` of the regular expression in
`toml_file::file_with_new_version`.  The regex crate compiles `\s` in
its default Unicode mode as the Unicode `White_Space` property; this is
its full 25-code-point table (controls, space, NEL, no-break space,
Ogham space mark, the em/en space block, line and paragraph separators,
narrow no-break space, medium mathematical space, ideographic space). -/
def wsChar (c : Char) : Bool :=
  let n := c.val.toNat
  inRange 0x9 0xD n || n == 0x20 || n == 0x85 || n == 0xA0
  || n == 0x1680 || inRange 0x2000 0x200A n || n == 0x2028
  || n == 0x2029 || n == 0x202F || n == 0x205F || n == 0x3000

/-- The character class `\d` of the regular expression.  The regex
crate compiles `\d` in its default Unicode mode as the
Unicode decimal-digit category; these are its ranges, generated from
the Unicode Character Database (version 14.0). -/
def isDigitChar (c : Char) : Bool :=
  let n := c.val.toNat
  inRange 0x30 0x39 n || inRange 0x660 0x669 n || inRange 0x6F0 0x6F9 n
  || inRange 0x7C0 0x7C9 n || inRange 0x966 0x96F n
  || inRange 0x9E6 0x9EF n || inRange 0xA66 0xA6F n
  || inRange 0xAE6 0xAEF n || inRange 0xB66 0xB6F n
  || inRange 0xBE6 0xBEF n || inRange 0xC66 0xC6F n
  || inRange 0xCE6 0xCEF n || inRange 0xD66 0xD6F n
  || inRange 0xDE6 0xDEF n || inRange 0xE50 0xE59 n
  || inRange 0xED0 0xED9 n || inRange 0xF20 0xF29 n
  || inRange 0x1040 0x1049 n || inRange 0x1090 0x1099 n
  || inRange 0x17E0 0x17E9 n || inRange 0x1810 0x1819 n
  || inRange 0x1946 0x194F n || inRange 0x19D0 0x19D9 n
  || inRange 0x1A80 0x1A89 n || inRange 0x1A90 0x1A99 n
  || inRange 0x1B50 0x1B59 n || inRange 0x1BB0 0x1BB9 n
  || inRange 0x1C40 0x1C49 n || inRange 0x1C50 0x1C59 n
  || inRange 0xA620 0xA629 n || inRange 0xA8D0 0xA8D9 n
  || inRange 0xA900 0xA909 n || inRange 0xA9D0 0xA9D9 n
  || inRange 0xA9F0 0xA9F9 n || inRange 0xAA50 0xAA59 n
  || inRange 0xABF0 0xABF9 n || inRange 0xFF10 0xFF19 n
  || inRange 0x104A0 0x104A9 n || inRange 0x10D30 0x10D39 n
  || inRange 0x11066 0x1106F n || inRange 0x110F0 0x110F9 n
  || inRange 0x11136 0x1113F n || inRange 0x111D0 0x111D9 n
  || inRange 0x112F0 0x112F9 n || inRange 0x11450 0x11459 n
  || inRange 0x114D0 0x114D9 n || inRange 0x11650 0x11659 n
  || inRange 0x116C0 0x116C9 n || inRange 0x11730 0x11739 n
  || inRange 0x118E0 0x118E9 n || inRange 0x11950 0x11959 n
  || inRange 0x11C50 0x11C59 n || inRange 0x11D50 0x11D59 n
  || inRange 0x11DA0 0x11DA9 n || inRange 0x16A60 0x16A69 n
  || inRange 0x16AC0 0x16AC9 n || inRange 0x16B50 0x16B59 n
  || inRange 0x1D7CE 0x1D7FF n || inRange 0x1E140 0x1E149 n
  || inRange 0x1E2F0 0x1E2F9 n || inRange 0x1E950 0x1E959 n
  || inRange 0x1FBF0 0x1FBF9 n

/-- Strip an expected literal from the front of the input, returning the
remainder on success. -/
def stripLit : List Char → List Char → Option (List Char)
  | [], cs => some cs
  | _ :: _, [] => none
  | l :: ls, c :: cs => if c = l then stripLit ls cs else none

/-- Length of the leading digit run and the remainder after it (the
greedy `\d+` of the regular expression, followed in the pattern by a
non-digit delimiter, so greediness is exact). -/
def spanDigits : List Char → Nat × List Char
  | [] => (0, [])
  | c :: cs =>
      if isDigitChar c then ((spanDigits cs).1 + 1, (spanDigits cs).2)
      else (0, c :: cs)

/-- The anchored matcher of the regular expression
`version\s=\s"\d+\.\d+\.\d+"` from `toml_file.rs` line 44: when the
pattern matches at the head of the input, return the length of the
match (`14 + d1 + d2 + d3` where `di` are the digit-run lengths). -/
def matchVersionAt (cs : List Char) : Option Nat :=
  match stripLit (("version").toList) cs with
  | some (w1 :: c1 :: w2 :: c2 :: cs2) =>
      if wsChar w1 && (c1 == '=') && wsChar w2 && (c2 == '"') then
        match spanDigits cs2 with
        | (0, _) => none
        | (k1 + 1, r1) =>
            match r1 with
            | c3 :: cs3 =>
                if c3 == '.' then
                  match spanDigits cs3 with
                  | (0, _) => none
                  | (k2 + 1, r2) =>
                      match r2 with
                      | c4 :: cs4 =>
                          if c4 == '.' then
                            match spanDigits cs4 with
                            | (0, _) => none
                            | (k3 + 1, r3) =>
                                match r3 with
                                | c5 :: _ =>
                                    if c5 == '"' then
                                      some (14 + (k1 + 1) + (k2 + 1) + (k3 + 1))
                                    else none
                                | [] => none
                          else none
                      | [] => none
                else none
            | [] => none
      else none
  | _ => none

/-- Leftmost match of the regular expression: the first position (and
match length) at which the anchored matcher succeeds, scanning from the
left, as `Regex::replace` does for its single replacement. -/
def findMatch : List Char → Option (Nat × Nat)
  | [] => none
  | c :: rest =>
      match matchVersionAt (c :: rest) with
      | some len => some (0, len)
      | none => (findMatch rest).map (fun p => (p.1 + 1, p.2))

/-- Embedding of `toml_file::file_with_new_version`: replace the first match of the
regular expression with `version = "<new_version>"`; when there is no
match, `Regex::replace` returns the input unchanged. -/
def file_with_new_version (file : String) (new_version : String) : String :=
  let replacement := ("version = \"") ++ new_version ++ ("\"")
  match findMatch file.toList with
  | none => file
  | some (i, len) =>
      String.mk
        (file.toList.take i ++ replacement.toList ++ file.toList.drop (i + len))

/-- Declarative form of the matched pattern: the literal `version`, one
whitespace character, `=`, one whitespace character, then a quoted
`digits.digits.digits`. -/
def IsVersionPattern (l : List Char) : Prop :=
  ∃ (w1 w2 : Char) (d1 d2 d3 : List Char),
    wsChar w1 = true ∧ wsChar w2 = true
    ∧ d1 ≠ [] ∧ d2 ≠ [] ∧ d3 ≠ []
    ∧ (∀ c ∈ d1, isDigitChar c = true)
    ∧ (∀ c ∈ d2, isDigitChar c = true)
    ∧ (∀ c ∈ d3, isDigitChar c = true)
    ∧ l = (("version").toList)
        ++ w1 :: '=' :: w2 :: '"' :: (d1 ++ '.' :: (d2 ++ '.' :: (d3 ++ ['"'])))

/-- Modelled from the spec claim's reading of the pattern: the same
matcher but accepting only a single space character where the
source regular expression accepts any whitespace (`\s`). -/
def matchVersionAtSpace (cs : List Char) : Option Nat :=
  match stripLit (("version").toList) cs with
  | none => none
  | some cs1 =>
      match cs1 with
      | ' ' :: '=' :: ' ' :: '"' :: cs2 =>
          let s1 := spanDigits cs2
          if s1.1 = 0 then none else
          match s1.2 with
          | '.' :: cs3 =>
              let s2 := spanDigits cs3
              if s2.1 = 0 then none else
              match s2.2 with
              | '.' :: cs4 =>
                  let s3 := spanDigits cs4
                  if s3.1 = 0 then none else
                  match s3.2 with
                  | '"' :: _ => some (14 + s1.1 + s2.1 + s3.1)
                  | _ => none
              | _ => none
          | _ => none
      | _ => none

/-- Model of `toml_file::TomlError` (the payload of the `Io` variant is dropped;
only the variant matters to the claims). -/
inductive TomlError where
  | parseFail
  | ioError
deriving DecidableEq, Repr

/-- Embedding of `Path::new(crate_dir).join(sub)` for the relative member paths the
sources produce. -/
def joinPath (dir sub : String) : String := dir ++ ("/") ++ sub

mutual

/-- Embedding of `toml_file::read_from_file`, modelled over a fixed map
`fs : path → Option contents` (the file system, which the operating
system consults at `File::open`) and instrumented with explicit `fuel`:
`none` means the recursion did not finish within `fuel` nested calls —
the Rust function has no cycle guard, so on cyclic member references no
finite fuel suffices. -/
def read_from_file (fuel : Nat) (parse : String → Option Manifest)
    (fs : String → Option String) (crate_dir : String) (package : String) :
    Option (Except TomlError (List String)) :=
  match fuel with
  | 0 => none
  | fuel + 1 =>
      match fs (joinPath crate_dir ("Cargo.toml")) with
      | none => some (Except.error TomlError.ioError)
      | some cargo_file =>
          let base :=
            match read_workspace parse cargo_file with
            | none => some (Except.ok ([] : List String))
            | some members =>
                read_members fuel parse fs crate_dir package
                  (members.filter (fun w => package == ("all") || w == package))
          match base with
          | none => none
          | some (Except.error e) => some (Except.error e)
          | some (Except.ok vs) =>
              match read_version parse cargo_file with
              | some v => some (Except.ok (vs ++ [v]))
              | none => some (Except.ok vs)
termination_by (fuel, 0)

/-- The `for workspace in workspaces` loop of `read_from_file`, with the
`?` early return on errors. -/
def read_members (fuel : Nat) (parse : String → Option Manifest)
    (fs : String → Option String) (crate_dir : String) (package : String) :
    List String → Option (Except TomlError (List String))
  | [] => some (Except.ok [])
  | w :: ws =>
      match read_from_file fuel parse fs (joinPath crate_dir w) package with
      | none => none
      | some (Except.error e) => some (Except.error e)
      | some (Except.ok vs) =>
          match read_members fuel parse fs crate_dir package ws with
          | none => none
          | some (Except.error e) => some (Except.error e)
          | some (Except.ok rest) => some (Except.ok (vs ++ rest))
termination_by l => (fuel, l.length + 1)

end

/-- The effect of `write_all` on a file opened with
`OpenOptions::new().read(true).write(true)` (no truncation): the new
bytes overwrite a prefix, any longer tail of the old content remains. -/
def overwrite_content (old new : String) : String :=
  new ++ old.drop new.length

mutual

/-- Embedding of `toml_file::write_new_version` over the same fixed-map file system,
returning the updated map; fuel as in `read_from_file`.  The manifest
text is read before the recursion into members and rewritten after it,
exactly as in the source. -/
def write_new_version (fuel : Nat) (parse : String → Option Manifest)
    (fs : String → Option String) (crate_dir : String) (package : String)
    (new_version : String) : Option (Except TomlError (String → Option String)) :=
  match fuel with
  | 0 => none
  | fuel + 1 =>
      match fs (joinPath crate_dir ("Cargo.toml")) with
      | none => some (Except.error TomlError.ioError)
      | some cargo_file =>
          let afterMembers :=
            match read_workspace parse cargo_file with
            | none => some (Except.ok fs)
            | some members =>
                write_members fuel parse fs crate_dir package new_version
                  (members.filter (fun w => package == ("all") || w == package))
          match afterMembers with
          | none => none
          | some (Except.error e) => some (Except.error e)
          | some (Except.ok fsCur) =>
              match fsCur (joinPath crate_dir ("Cargo.toml")) with
              | none => some (Except.error TomlError.ioError)
              | some old =>
                  some (Except.ok (fun p =>
                    if p == joinPath crate_dir ("Cargo.toml") then
                      some (overwrite_content old
                        (file_with_new_version cargo_file new_version))
                    else fsCur p))
termination_by (fuel, 0)

/-- The member loop of `write_new_version`: each member write threads
the updated file system into the next iteration. -/
def write_members (fuel : Nat) (parse : String → Option Manifest)
    (fs : String → Option String) (crate_dir : String) (package : String)
    (new_version : String) :
    List String → Option (Except TomlError (String → Option String))
  | [] => some (Except.ok fs)
  | w :: ws =>
      match write_new_version fuel parse fs (joinPath crate_dir w) package
          new_version with
      | none => none
      | some (Except.error e) => some (Except.error e)
      | some (Except.ok fsNext) =>
          write_members fuel parse fsNext crate_dir package new_version ws
termination_by l => (fuel, l.length + 1)

end

/-- A depth certificate for the member-reference tree rooted at `dir`:
the walk from `dir` reaches manifests whose member lists nest at most
`d` levels.  Cyclic member references admit no such certificate. -/
inductive WalkBounded (parse : String → Option Manifest)
    (fs : String → Option String) (package : String) : String → Nat → Prop where
  | noFile : ∀ dir d, fs (joinPath dir ("Cargo.toml")) = none →
      WalkBounded parse fs package dir d
  | noMembers : ∀ dir d content,
      fs (joinPath dir ("Cargo.toml")) = some content →
      read_workspace parse content = none →
      WalkBounded parse fs package dir d
  | withMembers : ∀ dir d content members,
      fs (joinPath dir ("Cargo.toml")) = some content →
      read_workspace parse content = some members →
      (∀ w ∈ members.filter (fun w => package == ("all") || w == package),
        WalkBounded parse fs package (joinPath dir w) d) →
      WalkBounded parse fs package dir (d + 1)

/-- The manifest of the cyclic example: every directory's `Cargo.toml`
declares the single workspace member `x`. -/
def cyclicManifest : Manifest :=
  { package := none, workspace := some { members := [("x")] } }

/-- The parser of the cyclic example: every content deserializes to
`cyclicManifest`. -/
def cyclicParse : String → Option Manifest := fun _ => some cyclicManifest

/-- The file system of the cyclic example: every path exists. -/
def cyclicFs : String → Option String := fun _ => some ("m")

/-- Embedding of `is_release_branch` from `src/main.rs`: plain string equality. -/
def is_release_branch (current release : String) : Bool :=
  current == release

/-- Embedding of `Version::to_string`: the canonical `MAJOR.MINOR.PATCH` rendering. -/
def showVersion (v : Version) : String :=
  toString v.major ++ (".") ++ toString v.minor ++ (".") ++ toString v.patch

/-- Observable actions of the `main` pipeline, in program order.  The
`info_exit!` macro logs and calls `exit(0)`; `error_exit!` logs and calls
`exit(1)`; `.expect(..)` panics. -/
inductive Event where
  | infoExitEv (code : Nat)
  | errorExitEv (code : Nat)
  | panicEv
  | printChangelogEv
  | writeManifestEv (v : String)
  | writeChangelogEv
  | commitFilesEv
  | createTagEv
  | pushEv
  | githubReleaseEv
  | cratesPublishEv
deriving DecidableEq, Repr

/-- The inputs `main` has gathered before the release decision: the
current branch, the configured release branch and modes, the capability
flags consulted after the tag step, the result of
`toml_file::read_from_file`, and the external `Version::parse`. -/
structure MainInputs where
  currentBranch : Option String
  branch : String
  writeMode : Bool
  releaseMode : Bool
  canPush : Bool
  canReleaseGithub : Bool
  canReleaseCratesio : Bool
  tomlVersions : Except TomlError (List String)
  parseSemver : String → Option Version

/-- The version `main` decides on: the first entry of the versions read
from the manifest(s), parsed by `Version::parse` (`&versions[0]` panics
on an empty list; parsing failures panic through `.expect`). -/
def decidedVersion (inp : MainInputs) : Option Version :=
  match inp.tomlVersions with
  | Except.error _ => none
  | Except.ok versions =>
      match versions.head? with
      | none => none
      | some vstr => inp.parseSemver vstr

/-- A release step gated on a boolean capability check. -/
def gate (b : Bool) (e : Event) : List Event :=
  if b then [e] else []

/-- The decision structure of `main` from `src/main.rs` lines 404-501,
as the list of observable actions: branch check, manifest read, version
parse, `version_bump`, then either the dry-run printing path or the
write path (manifest write, changelog write, commit, tag, and the three
release steps gated on `release_mode` and the capability checks). -/
def mainModel (inp : MainInputs) (bump : CommitType) : List Event :=
  match inp.currentBranch with
  | none => [Event.errorExitEv 1]
  | some br =>
      if is_release_branch br inp.branch then
        match inp.tomlVersions with
        | Except.error _ => [Event.errorExitEv 1]
        | Except.ok versions =>
            match versions.head? with
            | none => [Event.panicEv]
            | some vstr =>
                match inp.parseSemver vstr with
                | none => [Event.panicEv]
                | some version =>
                    match version_bump version bump with
                    | none => [Event.infoExitEv 0]
                    | some nv =>
                        if inp.writeMode = false then
                          [Event.printChangelogEv]
                        else
                          [Event.writeManifestEv (showVersion nv),
                            Event.writeChangelogEv, Event.commitFilesEv,
                            Event.createTagEv]
                          ++ gate (inp.releaseMode && inp.canPush)
                              Event.pushEv
                          ++ gate (inp.releaseMode && inp.canReleaseGithub)
                              Event.githubReleaseEv
                          ++ gate (inp.releaseMode && inp.canReleaseCratesio)
                              Event.cratesPublishEv
      else [Event.infoExitEv 0]

/-- Concrete pipeline inputs used by the C5 and C6 witnesses: on the
release branch, write mode on, manifest version `1.0.0`. -/
def witnessInputs : MainInputs :=
  { currentBranch := some ("master"), branch := ("master"),
    writeMode := true, releaseMode := false, canPush := false,
    canReleaseGithub := false, canReleaseCratesio := false,
    tomlVersions := Except.ok [("1.0.0")],
    parseSemver := fun s => if s == ("1.0.0") then some ⟨1, 0, 0⟩ else none }

/-- C1: `version_bump` implements the spec's section 4.4 table for every
version and every change kind, and in particular passes the four
canonical checks of the spec: `0.2.0` plus Breaking gives `0.3.0`,
`1.0.0` plus Breaking gives `2.0.0`, `1.4.2` plus Feature gives `1.5.0`,
and `1.4.2` plus Fix gives `1.4.3`. -/
theorem version_bump_implements_spec_table :
    (∀ (v : Version) (k : CommitType), version_bump v k = spec_nextVersion v k)
    ∧ version_bump ⟨0, 2, 0⟩ CommitType.Major = some ⟨0, 3, 0⟩
    ∧ version_bump ⟨1, 0, 0⟩ CommitType.Major = some ⟨2, 0, 0⟩
    ∧ version_bump ⟨1, 4, 2⟩ CommitType.Minor = some ⟨1, 5, 0⟩
    ∧ version_bump ⟨1, 4, 2⟩ CommitType.Patch = some ⟨1, 4, 3⟩ := by
  refine ⟨fun v k => ?_, by decide, by decide, by decide, by decide⟩
  cases k <;>
    simp [version_bump, spec_nextVersion, Version.increment_patch,
      Version.increment_minor, Version.increment_major]

/-- C2: `version_bump` returns `none` exactly for `CommitType::Unknown`
(the spec's `Unannotated`), and returns some next version for every other
kind. -/
theorem version_bump_none_iff_unknown (v : Version) (k : CommitType) :
    (version_bump v k = none ↔ k = CommitType.Unknown)
    ∧ ((version_bump v k).isSome ↔ k ≠ CommitType.Unknown) := by
  cases k <;> by_cases h : v.major = 0 <;>
    simp_all [version_bump]

/-- C3: calling `version_bump` leaves the input version unchanged: the
function is pure; the only mutation in its body acts on the local clone. -/
theorem version_bump_preserves_input (v : Version) (k : CommitType) :
    (version_bump_borrow v k).2 = v
    ∧ (version_bump_borrow v k).1 = version_bump v k := by
  exact ⟨rfl, rfl⟩

/-- C7: two runs of `version_bump` on identical inputs, started from any
two ambient states, produce identical results, and neither run changes its
state. -/
theorem version_bump_two_runs (σ : Type) (s t : σ) (v : Version)
    (k : CommitType) :
    (version_bump_run σ s v k).1 = (version_bump_run σ t v k).1
    ∧ (version_bump_run σ s v k).2 = s
    ∧ (version_bump_run σ t v k).2 = t := by
  exact ⟨rfl, rfl, rfl⟩

/-- C8: for every kind other than `Unknown`, `version_bump` yields a
version strictly greater than the input in semver precedence; the next
version never decreases and never equals the current one. -/
theorem version_bump_strictly_increases (v : Version) (k : CommitType)
    (h : k ≠ CommitType.Unknown) :
    ∃ w, version_bump v k = some w ∧ v.semver_lt w ∧ w ≠ v := by
  have hne : ∀ w : Version, v.semver_lt w → w ≠ v := by
    intro w hlt heq
    subst heq
    simp [Version.semver_lt] at hlt
  cases k with
  | Unknown => exact absurd rfl h
  | Patch =>
      refine ⟨v.increment_patch, ?_, ?_, hne _ ?_⟩ <;>
        by_cases h0 : v.major = 0 <;>
          simp_all [version_bump, Version.increment_patch, Version.semver_lt]
  | Minor =>
      by_cases h0 : v.major = 0
      · refine ⟨v.increment_patch, ?_, ?_, hne _ ?_⟩ <;>
          simp_all [version_bump, Version.increment_patch, Version.semver_lt]
      · refine ⟨v.increment_minor, ?_, ?_, hne _ ?_⟩ <;>
          simp_all [version_bump, Version.increment_minor, Version.semver_lt]
  | Major =>
      by_cases h0 : v.major = 0
      · refine ⟨v.increment_minor, ?_, ?_, hne _ ?_⟩ <;>
          simp_all [version_bump, Version.increment_minor, Version.semver_lt]
      · refine ⟨v.increment_major, ?_, ?_, hne _ ?_⟩ <;>
          simp_all [version_bump, Version.increment_major, Version.semver_lt]

/-- Witness for C8 at the concrete input `1.2.3` with a `Patch` bump. -/
theorem version_bump_strictly_increases_witness :
    ∃ w, version_bump ⟨1, 2, 3⟩ CommitType.Patch = some w
      ∧ Version.semver_lt ⟨1, 2, 3⟩ w ∧ w ≠ ⟨1, 2, 3⟩ :=
  version_bump_strictly_increases ⟨1, 2, 3⟩ CommitType.Patch (by decide)

/-- C10: `read_version` is total and returns `some v` exactly when the
input parses as a manifest whose package table carries the non-empty
version string `v`; every other input (unparseable TOML, missing package
table, empty version string) yields `none`. -/
theorem read_version_some_iff (parse : String → Option Manifest)
    (file : String) :
    ∀ v : String,
      read_version parse file = some v
        ↔ ∃ m p, parse file = some m ∧ m.package = some p
            ∧ p.version = v ∧ v ≠ "" := by
  intro v
  unfold read_version read_manifest
  cases hp : parse file with
  | none => simp
  | some m =>
      cases hq : m.package with
      | none => simp [hq]
      | some p =>
          constructor
          · intro h
            have hfilter :
                Option.filter (fun s => !s.isEmpty) (some p.version) = some v := by
              simpa [hq] using h
            by_cases he : p.version.isEmpty
            · rw [Option.filter] at hfilter
              simp [he] at hfilter
            · rw [Option.filter] at hfilter
              simp [he] at hfilter
              subst hfilter
              exact ⟨m, p, rfl, hq, rfl,
                fun hc => he ((String.isEmpty_iff p.version).mpr hc)⟩
          · rintro ⟨m', p', hm, hpk, hv, hne⟩
            injection hm with hm'
            subst hm'
            rw [hq] at hpk
            injection hpk with hpk'
            subst hpk'
            subst hv
            have hff : p.version.isEmpty = false := by
              cases hb : p.version.isEmpty
              · rfl
              · exact absurd ((String.isEmpty_iff p.version).mp hb) hne
            simp [hq, Option.filter, hff]

example : matchVersionAt (("version = \"1.2.3\"").toList) = some 17 := by decide

example : matchVersionAt (("version\t=\t\"1.2.3\"").toList) = some 17 := by decide

example : matchVersionAt (("version\u00A0=\u00A0\"1.2.3\"").toList) = some 17 := by
  decide

example :
    file_with_new_version ("version\u00A0=\u00A0\"1.2.3\"") ("2.0.0")
      = ("version = \"2.0.0\"") := by decide

example : matchVersionAtSpace (("version\t=\t\"1.2.3\"").toList) = none := by decide

example :
    file_with_new_version ("x version = \"1.2.3\" y") ("2.0.0")
      = ("x version = \"2.0.0\" y") := by decide

example :
    file_with_new_version ("no version here") ("2.0.0")
      = ("no version here") := by decide

theorem stripLit_eq_some (ls : List Char) :
    ∀ cs r, stripLit ls cs = some r ↔ cs = ls ++ r := by
  induction ls with
  | nil => intro cs r; simp [stripLit]
  | cons l ls ih =>
      intro cs r
      cases cs with
      | nil => simp [stripLit]
      | cons c cs0 =>
          by_cases h : c = l
          · subst h; simp [stripLit, ih]
          · simp [stripLit, h]

theorem stripLit_self_append (ls r : List Char) :
    stripLit ls (ls ++ r) = some r :=
  (stripLit_eq_some ls (ls ++ r) r).mpr rfl

theorem spanDigits_append (ds : List Char) (c : Char) (r : List Char)
    (hds : ∀ x ∈ ds, isDigitChar x = true) (hc : isDigitChar c = false) :
    spanDigits (ds ++ c :: r) = (ds.length, c :: r) := by
  induction ds with
  | nil => simp [spanDigits, hc]
  | cons d ds ih =>
      have hd : isDigitChar d = true := hds d (by simp)
      have hrec : spanDigits (ds ++ c :: r) = (ds.length, c :: r) :=
        ih (fun x hx => hds x (by simp [hx]))
      simp [spanDigits, hd, hrec]

theorem spanDigits_decomp (cs : List Char) :
    ∃ ds, cs = ds ++ (spanDigits cs).2
      ∧ ds.length = (spanDigits cs).1
      ∧ (∀ x ∈ ds, isDigitChar x = true) := by
  induction cs with
  | nil => exact ⟨[], by simp [spanDigits], by simp [spanDigits], by simp⟩
  | cons c cs ih =>
      by_cases h : isDigitChar c = true
      · obtain ⟨ds, h1, h2, h3⟩ := ih
        refine ⟨c :: ds, ?_, ?_, ?_⟩
        · simpa [spanDigits, h] using h1
        · simpa [spanDigits, h] using h2
        · intro x hx
          rcases List.mem_cons.mp hx with hx | hx
          · rw [hx]; exact h
          · exact h3 x hx
      · exact ⟨[], by simp [spanDigits, h], by simp [spanDigits, h], by simp⟩

theorem take_len_append (a b : List Char) : (a ++ b).take a.length = a := by
  induction a with
  | nil => simp
  | cons x xs ih => simp [ih]

theorem spanDigits_eq (cs : List Char) (n : Nat) (r : List Char)
    (h : spanDigits cs = (n, r)) :
    ∃ ds, cs = ds ++ r ∧ ds.length = n ∧ ∀ x ∈ ds, isDigitChar x = true := by
  obtain ⟨ds, h1, h2, h3⟩ := spanDigits_decomp cs
  rw [h] at h1 h2
  exact ⟨ds, h1, h2, h3⟩

theorem matchVersionAt_nil : matchVersionAt [] = none := by decide

/-- Soundness of the anchored matcher: a reported match of length `len`
means the first `len` characters form the version pattern, and `len` does
not overrun the input. -/
theorem matchVersionAt_some (cs : List Char) (len : Nat)
    (h : matchVersionAt cs = some len) :
    IsVersionPattern (cs.take len) ∧ len ≤ cs.length := by
  unfold matchVersionAt at h
  split at h
  case h_2 => exact absurd h (by simp)
  rename_i w1 c1 w2 c2 cs2 heq0
  split at h
  case isFalse => exact absurd h (by simp)
  rename_i hcond
  have hw1 : wsChar w1 = true := by
    simp only [Bool.and_eq_true] at hcond; exact hcond.1.1.1
  have hw2 : wsChar w2 = true := by
    simp only [Bool.and_eq_true] at hcond; exact hcond.1.2
  have hc1 : c1 = '=' := by
    simp only [Bool.and_eq_true, beq_iff_eq] at hcond; exact hcond.1.1.2
  have hc2 : c2 = '"' := by
    simp only [Bool.and_eq_true, beq_iff_eq] at hcond; exact hcond.2
  split at h
  case h_1 => exact absurd h (by simp)
  rename_i k1 r1 heq1
  split at h
  case h_2 => exact absurd h (by simp)
  rename_i c3 cs3
  split at h
  case isFalse => exact absurd h (by simp)
  rename_i hc3
  split at h
  case h_1 => exact absurd h (by simp)
  rename_i k2 r2 heq2
  split at h
  case h_2 => exact absurd h (by simp)
  rename_i c4 cs4
  split at h
  case isFalse => exact absurd h (by simp)
  rename_i hc4
  split at h
  case h_1 => exact absurd h (by simp)
  rename_i k3 r3 heq3
  split at h
  case h_2 => exact absurd h (by simp)
  rename_i c5 tail
  split at h
  case isFalse => exact absurd h (by simp)
  rename_i hc5
  have hlen : len = 14 + (k1 + 1) + (k2 + 1) + (k3 + 1) :=
    (Option.some.inj h).symm
  have hc3e : c3 = '.' := by simpa using hc3
  have hc4e : c4 = '.' := by simpa using hc4
  have hc5e : c5 = '"' := by simpa using hc5
  subst hc1 hc2 hc3e hc4e hc5e
  have hcs : cs = (("version").toList) ++ w1 :: '=' :: w2 :: '"' :: cs2 :=
    (stripLit_eq_some _ _ _).mp heq0
  obtain ⟨ds1, hd1a, hd1b, hd1c⟩ := spanDigits_eq cs2 _ _ heq1
  obtain ⟨ds2, hd2a, hd2b, hd2c⟩ := spanDigits_eq cs3 _ _ heq2
  obtain ⟨ds3, hd3a, hd3b, hd3c⟩ := spanDigits_eq cs4 _ _ heq3
  rw [hd3a] at hd2a
  rw [hd2a] at hd1a
  rw [hd1a] at hcs
  have hcs2 : cs
      = ((("version").toList)
          ++ w1 :: '=' :: w2 :: '"'
            :: (ds1 ++ '.' :: (ds2 ++ '.' :: (ds3 ++ [('"')])))) ++ tail := by
    rw [hcs]
    simp [List.append_assoc]
  have hplen : ((("version").toList)
      ++ w1 :: '=' :: w2 :: '"'
        :: (ds1 ++ '.' :: (ds2 ++ '.' :: (ds3 ++ [('"')])))).length = len := by
    have hv : ((("version").toList)).length = 7 := rfl
    rw [hlen]
    simp only [List.length_append, List.length_cons, List.length_nil, hv,
      hd1b, hd2b, hd3b]
    omega
  constructor
  · rw [hcs2, ← hplen, take_len_append]
    refine ⟨w1, w2, ds1, ds2, ds3, hw1, hw2, ?_, ?_, ?_, hd1c, hd2c, hd3c, rfl⟩
    · intro hnil; rw [hnil] at hd1b; simp at hd1b
    · intro hnil; rw [hnil] at hd2b; simp at hd2b
    · intro hnil; rw [hnil] at hd3b; simp at hd3b
  · rw [hcs2, List.length_append, ← hplen]
    omega

/-- Completeness of the anchored matcher: when the first `len` characters
of the input (with `len` within bounds) form the version pattern, the
matcher reports a match of exactly length `len`. -/
theorem matchVersionAt_of_pattern (cs : List Char) (len : Nat)
    (hlen : len ≤ cs.length) (hp : IsVersionPattern (cs.take len)) :
    matchVersionAt cs = some len := by
  obtain ⟨w1, w2, d1, d2, d3, hw1, hw2, hn1, hn2, hn3, hd1, hd2, hd3, heq⟩ := hp
  have hsplit := List.take_append_drop len cs
  rw [heq] at hsplit
  have hlen2 : len = 14 + d1.length + d2.length + d3.length := by
    have hl := congrArg List.length heq
    rw [List.length_take, min_eq_left hlen] at hl
    have hv : ((("version").toList)).length = 7 := rfl
    simp only [List.length_append, List.length_cons, List.length_nil, hv] at hl
    omega
  obtain ⟨k1, hk1⟩ : ∃ k, d1.length = k + 1 := by
    cases d1 with
    | nil => exact absurd rfl hn1
    | cons x xs => exact ⟨xs.length, by simp⟩
  obtain ⟨k2, hk2⟩ : ∃ k, d2.length = k + 1 := by
    cases d2 with
    | nil => exact absurd rfl hn2
    | cons x xs => exact ⟨xs.length, by simp⟩
  obtain ⟨k3, hk3⟩ : ∃ k, d3.length = k + 1 := by
    cases d3 with
    | nil => exact absurd rfl hn3
    | cons x xs => exact ⟨xs.length, by simp⟩
  have hcs : cs = (("version").toList)
      ++ w1 :: '=' :: w2 :: '"'
        :: (d1 ++ '.' :: (d2 ++ '.' :: (d3 ++ ('"') :: cs.drop len))) := by
    conv_lhs => rw [← hsplit]
    simp [List.append_assoc]
  have hspan1 : spanDigits (d1 ++ '.' :: (d2 ++ '.' :: (d3 ++ ('"') :: cs.drop len)))
      = (k1 + 1, '.' :: (d2 ++ '.' :: (d3 ++ ('"') :: cs.drop len))) := by
    rw [spanDigits_append d1 '.' _ hd1 (by decide), hk1]
  have hspan2 : spanDigits (d2 ++ '.' :: (d3 ++ ('"') :: cs.drop len))
      = (k2 + 1, '.' :: (d3 ++ ('"') :: cs.drop len)) := by
    rw [spanDigits_append d2 '.' _ hd2 (by decide), hk2]
  have hspan3 : spanDigits (d3 ++ ('"') :: cs.drop len)
      = (k3 + 1, ('"') :: cs.drop len) := by
    rw [spanDigits_append d3 ('"') _ hd3 (by decide), hk3]
  conv_lhs => rw [hcs]
  simp only [matchVersionAt, stripLit_self_append, hspan1, hspan2, hspan3,
    hw1, hw2, beq_self_eq_true, Bool.and_self, Bool.and_true, Bool.true_and,
    if_true]
  rw [hlen2, hk1, hk2, hk3]

theorem findMatch_spec (cs : List Char) :
    ∀ i len, findMatch cs = some (i, len) →
      matchVersionAt (List.drop i cs) = some len
        ∧ ∀ j, j < i → matchVersionAt (List.drop j cs) = none := by
  induction cs with
  | nil => intro i len h; simp [findMatch] at h
  | cons c rest ih =>
      intro i len h
      unfold findMatch at h
      split at h
      · rename_i l heq
        cases h
        exact ⟨heq, fun j hj => absurd hj (Nat.not_lt_zero j)⟩
      · rename_i heq
        cases hf : findMatch rest with
        | none => rw [hf] at h; simp at h
        | some p =>
            obtain ⟨pi, plen⟩ := p
            rw [hf] at h
            simp only [Option.map_some'] at h
            have h2 := Option.some.inj h
            have hi : i = pi + 1 := (congrArg Prod.fst h2).symm
            have hl : len = plen := (congrArg Prod.snd h2).symm
            subst hi
            rw [← hl] at hf
            obtain ⟨ha, hb⟩ := ih pi len hf
            refine ⟨by simpa using ha, ?_⟩
            intro j hj
            cases j with
            | zero => simpa using heq
            | succ j0 =>
                have := hb j0 (by omega)
                simpa using this

theorem findMatch_complete (cs : List Char) :
    ∀ i len, matchVersionAt (List.drop i cs) = some len →
      (∀ j, j < i → matchVersionAt (List.drop j cs) = none) →
      findMatch cs = some (i, len) := by
  induction cs with
  | nil =>
      intro i len h _
      rw [List.drop_nil, matchVersionAt_nil] at h
      cases h
  | cons c rest ih =>
      intro i len h hnone
      cases i with
      | zero =>
          have h0 : matchVersionAt (c :: rest) = some len := by simpa using h
          unfold findMatch
          rw [h0]
      | succ i0 =>
          have hm : matchVersionAt (c :: rest) = none := by
            simpa using hnone 0 (Nat.succ_pos i0)
          have hrec : findMatch rest = some (i0, len) :=
            ih i0 len (by simpa using h)
              (fun j hj => by simpa using hnone (j + 1) (by omega))
          unfold findMatch
          rw [hm, hrec]
          rfl

theorem findMatch_none_iff (cs : List Char) :
    findMatch cs = none ↔ ∀ i, matchVersionAt (List.drop i cs) = none := by
  constructor
  · intro h i
    by_contra hne
    have hex : ∃ j, (matchVersionAt (List.drop j cs)).isSome = true := by
      cases hm : matchVersionAt (List.drop i cs) with
      | none => exact absurd hm hne
      | some l => exact ⟨i, by rw [hm]; rfl⟩
    have hi0 : (matchVersionAt (List.drop (Nat.find hex) cs)).isSome = true :=
      Nat.find_spec hex
    obtain ⟨l0, hl0⟩ := Option.isSome_iff_exists.mp hi0
    have hmin : ∀ j, j < Nat.find hex →
        matchVersionAt (List.drop j cs) = none := by
      intro j hj
      have hnot := Nat.find_min hex hj
      cases hmm : matchVersionAt (List.drop j cs) with
      | none => rfl
      | some l => exact absurd (by rw [hmm]; rfl) hnot
    rw [findMatch_complete cs (Nat.find hex) l0 hl0 hmin] at h
    cases h
  · intro h
    cases hf : findMatch cs with
    | none => rfl
    | some p =>
        obtain ⟨pi, plen⟩ := p
        have := (findMatch_spec cs pi plen hf).1
        rw [h pi] at this
        cases this

/-- C9 (amended): `file_with_new_version` replaces only the first
substring matching the version pattern, where each of the two gaps holds
one character of the regex's `\s` class (Unicode `White_Space`, not only
a space) and the digit runs draw from the regex's `\d` class (Unicode
decimal digits), with `version = "<new>"`, leaving every other character
unchanged; when no substring matches, the text is returned unchanged. -/
theorem file_with_new_version_frame (file nv : String) :
    ((∀ i len, ¬ IsVersionPattern ((file.toList.drop i).take len))
        → file_with_new_version file nv = file)
    ∧ (∀ i len, i + len ≤ file.toList.length
        → IsVersionPattern ((file.toList.drop i).take len)
        → (∀ j len', j < i
            → ¬ IsVersionPattern ((file.toList.drop j).take len'))
        → file_with_new_version file nv
            = String.mk (file.toList.take i
                ++ ((("version = \"") ++ nv ++ ("\"")).toList)
                ++ file.toList.drop (i + len))) := by
  constructor
  · intro hno
    have hmz : ∀ i, matchVersionAt (file.toList.drop i) = none := by
      intro i
      cases hm : matchVersionAt (file.toList.drop i) with
      | none => rfl
      | some l =>
          exact absurd (matchVersionAt_some _ _ hm).1 (hno i l)
    unfold file_with_new_version
    rw [(findMatch_none_iff file.toList).mpr hmz]
  · intro i len hbound hpat hleft
    have hdlen : len ≤ (file.toList.drop i).length := by
      rw [List.length_drop]
      omega
    have hmi : matchVersionAt (file.toList.drop i) = some len :=
      matchVersionAt_of_pattern _ len hdlen hpat
    have hmz : ∀ j, j < i → matchVersionAt (file.toList.drop j) = none := by
      intro j hj
      cases hm : matchVersionAt (file.toList.drop j) with
      | none => rfl
      | some l =>
          exact absurd (matchVersionAt_some _ _ hm).1 (hleft j l hj)
    have hfind : findMatch file.toList = some (i, len) :=
      findMatch_complete file.toList i len hmi hmz
    unfold file_with_new_version
    rw [hfind]

/-- Witness for C9 at a concrete manifest line containing the pattern at
position 0. -/
theorem file_with_new_version_frame_witness :
    file_with_new_version ("version = \"1.2.3\"") ("9.9.9")
      = ("version = \"9.9.9\"") := by
  have h := (file_with_new_version_frame ("version = \"1.2.3\"") ("9.9.9")).2
    0 17 (by decide)
    ⟨' ', ' ', [('1')], [('2')], [('3')], by decide, by decide, by decide,
      by decide, by decide, by decide, by decide, by decide, by decide⟩
    (fun j len' hj => absurd hj (Nat.not_lt_zero j))
  exact h.trans (by decide)

/-- Counterexample to C9 as stated: the source regular expression accepts
any whitespace character around the equals sign, not only a single space.
On a file using tabs, no single-space pattern occurs (the spec-modelled
matcher finds nothing at any position), yet the code rewrites the file. -/
theorem file_with_new_version_space_counterexample :
    (∀ j, j ≤ 17
      → matchVersionAtSpace ((("version\t=\t\"1.2.3\"").toList).drop j) = none)
    ∧ file_with_new_version ("version\t=\t\"1.2.3\"") ("2.0.0")
        ≠ ("version\t=\t\"1.2.3\"") := by
  exact ⟨by decide, by decide⟩

theorem read_members_isSome (fuel : Nat) (parse : String → Option Manifest)
    (fs : String → Option String) (dir package : String) (l : List String)
    (h : ∀ w ∈ l, (read_from_file fuel parse fs (joinPath dir w) package).isSome) :
    (read_members fuel parse fs dir package l).isSome := by
  induction l with
  | nil => simp [read_members]
  | cons w ws ih =>
      have hw := h w (by simp)
      obtain ⟨r, hr⟩ := Option.isSome_iff_exists.mp hw
      cases r with
      | error e => simp [read_members, hr]
      | ok vs =>
          have hws := ih (fun x hx => h x (by simp [hx]))
          obtain ⟨r2, hr2⟩ := Option.isSome_iff_exists.mp hws
          cases r2 <;> simp [read_members, hr, hr2]

/-- C4 (amended): the member-reference walk of `read_from_file`
terminates on every input whose member tree carries a finite depth
certificate; `d + 1` units of fuel then suffice. -/
theorem read_from_file_terminates (parse : String → Option Manifest)
    (fs : String → Option String) (package dir : String) (d : Nat)
    (h : WalkBounded parse fs package dir d) :
    (read_from_file (d + 1) parse fs dir package).isSome := by
  induction h with
  | noFile dir d hfs => simp [read_from_file, hfs]
  | noMembers dir d content hfs hws =>
      cases hrv : read_version parse content <;>
        simp [read_from_file, hfs, hws, read_members, hrv]
  | withMembers dir d content members hfs hws hchild ih =>
      have hm : (read_members (d + 1) parse fs dir package
          (members.filter (fun w => package == ("all") || w == package))).isSome :=
        read_members_isSome _ _ _ _ _ _ ih
      obtain ⟨r, hr⟩ := Option.isSome_iff_exists.mp hm
      cases r with
      | error e => simp [read_from_file, hfs, hws, hr]
      | ok vs =>
          cases hrv : read_version parse content <;>
            simp [read_from_file, hfs, hws, hr, hrv]

/-- Witness for C4: a one-manifest project (no workspace table) carries
the depth-0 certificate, and one unit of fuel completes the read. -/
theorem read_from_file_terminates_witness :
    (read_from_file 1 (fun _ => none)
      (fun p => if p == ("a/Cargo.toml") then some ("f") else none)
      ("a") ("all")).isSome := by
  have hcert : WalkBounded (fun _ => none)
      (fun p => if p == ("a/Cargo.toml") then some ("f") else none)
      ("all") ("a") 0 :=
    WalkBounded.noMembers ("a") 0 ("f") (by decide) rfl
  exact read_from_file_terminates _ _ _ _ 0 hcert

theorem read_from_file_cyclic_none :
    ∀ fuel dir, read_from_file fuel cyclicParse cyclicFs dir ("all") = none := by
  intro fuel
  induction fuel with
  | zero => intro dir; simp [read_from_file]
  | succ f ih =>
      intro dir
      simp [read_from_file, cyclicFs, read_workspace, read_manifest,
        cyclicParse, cyclicManifest, read_members, ih]

theorem write_new_version_cyclic_none :
    ∀ fuel dir,
      write_new_version fuel cyclicParse cyclicFs dir ("all") ("1.0.0") = none := by
  intro fuel
  induction fuel with
  | zero => intro dir; simp [write_new_version]
  | succ f ih =>
      intro dir
      simp [write_new_version, cyclicFs, read_workspace, read_manifest,
        cyclicParse, cyclicManifest, write_members, ih]

/-- Counterexample to C4 as stated: on the cyclic member reference
(every manifest lists member `x`, every path exists) neither
`read_from_file` nor `write_new_version` terminates: no amount of fuel
produces a result, because the walk has no cycle guard. -/
theorem traversal_cyclic_counterexample :
    (¬ ∃ n, (read_from_file n cyclicParse cyclicFs ("a") ("all")).isSome)
    ∧ (¬ ∃ n,
        (write_new_version n cyclicParse cyclicFs ("a") ("all") ("1.0.0")).isSome) := by
  constructor
  · rintro ⟨n, hn⟩
    rw [read_from_file_cyclic_none n ("a")] at hn
    cases hn
  · rintro ⟨n, hn⟩
    rw [write_new_version_cyclic_none n ("a")] at hn
    cases hn

theorem decidedVersion_eq_some (inp : MainInputs) (version : Version)
    (h : decidedVersion inp = some version) :
    ∃ versions vstr, inp.tomlVersions = Except.ok versions
      ∧ versions.head? = some vstr
      ∧ inp.parseSemver vstr = some version := by
  unfold decidedVersion at h
  split at h
  · cases h
  rename_i versions heq
  split at h
  · cases h
  rename_i vstr hhead
  exact ⟨versions, vstr, heq, hhead, h⟩

theorem mem_gate (b : Bool) (e x : Event) :
    x ∈ gate b e ↔ b = true ∧ x = e := by
  cases b <;> simp [gate]

/-- C5: in every execution of the pipeline, the manifest writer runs
only when `version_bump` returned some next version, and then writes
exactly that version's rendering. -/
theorem write_manifest_only_with_bump (inp : MainInputs) (bump : CommitType)
    (s : String) (h : Event.writeManifestEv s ∈ mainModel inp bump) :
    ∃ version nv, decidedVersion inp = some version
      ∧ version_bump version bump = some nv ∧ s = showVersion nv := by
  unfold mainModel at h
  split at h
  · simp at h
  rename_i br
  split at h
  case isFalse => simp at h
  rename_i hbr
  split at h
  · simp at h
  rename_i versions heqToml
  split at h
  · simp at h
  rename_i vstr hhead
  split at h
  · simp at h
  rename_i version hparse
  split at h
  · simp at h
  rename_i nv hbump
  split at h
  case isTrue => simp at h
  refine ⟨version, nv, ?_, hbump, ?_⟩
  · simp [decidedVersion, heqToml, hhead, hparse]
  · simp [mem_gate] at h
    exact h

/-- Witness for C5: with a `Patch` bump from `1.0.0`, the pipeline's
manifest write carries `1.0.1`, and the theorem recovers the `Some`
result of `version_bump`. -/
theorem write_manifest_only_with_bump_witness :
    ∃ version nv, decidedVersion witnessInputs = some version
      ∧ version_bump version CommitType.Patch = some nv
      ∧ ("1.0.1") = showVersion nv :=
  write_manifest_only_with_bump witnessInputs CommitType.Patch ("1.0.1")
    (by decide)

/-- C6: when commit analysis yields `Unknown` (the spec's Unannotated)
and the pipeline has reached the decision point (branch matched, version
read and parsed), the program terminates by `info_exit!` with status 0;
every `error_exit!` event in any execution carries status 1, every
`info_exit!` event carries status 0, and the two statuses differ. -/
theorem unknown_bump_exits_zero :
    (∀ (inp : MainInputs) (br : String) (version : Version),
      inp.currentBranch = some br
      → is_release_branch br inp.branch = true
      → decidedVersion inp = some version
      → mainModel inp CommitType.Unknown = [Event.infoExitEv 0])
    ∧ (∀ (inp : MainInputs) (bump : CommitType) (c : Nat),
        Event.errorExitEv c ∈ mainModel inp bump → c = 1)
    ∧ (∀ (inp : MainInputs) (bump : CommitType) (c : Nat),
        Event.infoExitEv c ∈ mainModel inp bump → c = 0)
    ∧ (0 : Nat) ≠ 1 := by
  refine ⟨?_, ?_, ?_, by decide⟩
  · intro inp br version hbr hrel hdec
    obtain ⟨versions, vstr, heqToml, hhead, hparse⟩ :=
      decidedVersion_eq_some inp version hdec
    unfold mainModel
    rw [hbr]
    simp [hrel, heqToml, hhead, hparse, version_bump]
  · intro inp bump c h
    unfold mainModel at h
    split at h
    · simp at h; omega
    split at h
    case isFalse => simp at h
    split at h
    · simp at h; omega
    split at h
    · simp at h
    split at h
    · simp at h
    split at h
    · simp at h
    split at h
    · simp at h
    · simp [mem_gate] at h
  · intro inp bump c h
    unfold mainModel at h
    split at h
    · simp at h
    split at h
    case isFalse => simp at h; omega
    split at h
    · simp at h
    split at h
    · simp at h
    split at h
    · simp at h
    split at h
    · simp at h; omega
    split at h
    · simp at h
    · simp [mem_gate] at h

/-- Witness for C6: the concrete pipeline inputs reach the decision
point, and an `Unknown` analysis ends the run with exit status 0. -/
theorem unknown_bump_exits_zero_witness :
    mainModel witnessInputs CommitType.Unknown = [Event.infoExitEv 0] :=
  unknown_bump_exits_zero.1 witnessInputs ("master") ⟨1, 0, 0⟩ rfl rfl
    (by decide)

end SemanticRs

